import Mathlib

/-!
Verification of the Cakerator SVG-to-G-code generator
(`G-code Generator/genrate-gcode.py`).

The script flattens SVG path segments (lines, arcs, closed circular and
elliptical paths) into G1 motion lines.  Points are Python complex numbers;
we embed them as `ℂ` and real scalars as `ℝ`.  `cmath.rect(1, θ)` is
`Complex.exp (θ * I)` and `cmath.phase` is `Complex.arg`.  A motion line
`G1 X.. Y.. Z0 [; Travel distance: ..]` is embedded as a `GLine` record of
the two coordinates and the optional travel-distance annotation; the two
fixed header lines and the final float formatting carry no geometric
content and are not modelled.
-/

/-- One emitted motion line `G1 X<x> Y<y> Z0` with its optional
`Travel distance` annotation. -/
structure GLine where
  x : ℝ
  y : ℝ
  dist : Option ℝ

/-- `cmath.rect(1, theta)`, the unit vector at angle `theta`. -/
noncomputable def rect1 (theta : ℝ) : ℂ :=
  Complex.exp ((theta : ℂ) * Complex.I)

/-- A closed SVG `Path` object as used by the script: its start point, the
value of its `length()` method, and its `rx`/`ry` radius attributes. -/
structure ClosedPath where
  start : ℂ
  length : ℝ
  rx : ℝ
  ry : ℝ
  closed : Bool

/-- An SVG `Arc` segment as used by the script: start/end points, center,
the complex `radius` attribute, and the value of its `length()` method. -/
structure ArcSeg where
  start : ℂ
  endp : ℂ
  center : ℂ
  radius : ℂ
  len : ℝ

/-- The rotational direction label computed by `arc_to_gcode`. -/
inductive Dir where
  | CW : Dir
  | CCW : Dir
deriving DecidableEq

/- ---------------------------------------------------------------------
`circle_to_gcode` (genrate-gcode.py lines 5-31)
--------------------------------------------------------------------- -/

/-- `radius = abs(circle.length()) * scale_factor / (2 * math.pi)`. -/
noncomputable def circle_radius (circle : ClosedPath) (scale_factor : ℝ) : ℝ :=
  |circle.length| * scale_factor / (2 * Real.pi)

/-- The sample `point = center + radius * cmath.rect(1, theta)` at loop
index `i`, where `center = circle.start * scale_factor` and
`theta = 2 * pi * (i / num_segments)`. -/
noncomputable def circle_point (circle : ClosedPath) (scale_factor : ℝ)
    (num_segments i : ℕ) : ℂ :=
  circle.start * (scale_factor : ℂ) +
    (circle_radius circle scale_factor : ℂ) *
      rect1 (2 * Real.pi * ((i : ℝ) / (num_segments : ℝ)))

/-- `circle_to_gcode`: emits one motion line per `i in range(num_segments + 1)`
annotated with `abs(point - center)`, and returns the accumulated total. -/
noncomputable def circle_to_gcode (circle : ClosedPath) (scale_factor : ℝ)
    (num_segments : ℕ) : List GLine × ℝ :=
  ((List.range (num_segments + 1)).map fun i =>
      { x := (circle_point circle scale_factor num_segments i).re
        y := (circle_point circle scale_factor num_segments i).im
        dist := some (Complex.abs (circle_point circle scale_factor num_segments i -
                  circle.start * (scale_factor : ℂ))) },
   ((List.range (num_segments + 1)).map fun i =>
      Complex.abs (circle_point circle scale_factor num_segments i -
        circle.start * (scale_factor : ℂ))).sum)

/- ---------------------------------------------------------------------
`ellipse_to_gcode` (genrate-gcode.py lines 33-62)
--------------------------------------------------------------------- -/

/-- `rx = abs(ellipse.rx * scale_factor)`. -/
noncomputable def ellipse_rx (ellipse : ClosedPath) (scale_factor : ℝ) : ℝ :=
  |ellipse.rx * scale_factor|

/-- `ry = abs(ellipse.ry * scale_factor)`; computed by the script but never
used afterwards. -/
noncomputable def ellipse_ry (ellipse : ClosedPath) (scale_factor : ℝ) : ℝ :=
  |ellipse.ry * scale_factor|

/-- The sample `point = center + rx * cmath.rect(1, theta)` at loop index
`i`; only the horizontal radius `rx` enters the formula. -/
noncomputable def ellipse_point (ellipse : ClosedPath) (scale_factor : ℝ)
    (num_segments i : ℕ) : ℂ :=
  ellipse.start * (scale_factor : ℂ) +
    (ellipse_rx ellipse scale_factor : ℂ) *
      rect1 (2 * Real.pi * ((i : ℝ) / (num_segments : ℝ)))

/-- `ellipse_to_gcode`: same loop shape as `circle_to_gcode`, with the
radial distance `abs(point - center)` annotated on each line. -/
noncomputable def ellipse_to_gcode (ellipse : ClosedPath) (scale_factor : ℝ)
    (num_segments : ℕ) : List GLine × ℝ :=
  ((List.range (num_segments + 1)).map fun i =>
      { x := (ellipse_point ellipse scale_factor num_segments i).re
        y := (ellipse_point ellipse scale_factor num_segments i).im
        dist := some (Complex.abs (ellipse_point ellipse scale_factor num_segments i -
                  ellipse.start * (scale_factor : ℂ))) },
   ((List.range (num_segments + 1)).map fun i =>
      Complex.abs (ellipse_point ellipse scale_factor num_segments i -
        ellipse.start * (scale_factor : ℂ))).sum)

/- ---------------------------------------------------------------------
`arc_to_gcode` (genrate-gcode.py lines 64-110)
--------------------------------------------------------------------- -/

/-- `angle_start = cmath.phase(start - center)` with both points already
scaled by `scale_factor`. -/
noncomputable def arc_angle_start (arc : ArcSeg) (scale_factor : ℝ) : ℝ :=
  (arc.start * (scale_factor : ℂ) - arc.center * (scale_factor : ℂ)).arg

/-- `angle_end = cmath.phase(end - center)` with both points already scaled. -/
noncomputable def arc_angle_end (arc : ArcSeg) (scale_factor : ℝ) : ℝ :=
  (arc.endp * (scale_factor : ℂ) - arc.center * (scale_factor : ℂ)).arg

/-- `direction = 'CW' if angle_diff < 0 else 'CCW'`. -/
noncomputable def arc_direction (arc : ArcSeg) (scale_factor : ℝ) : Dir :=
  if arc_angle_end arc scale_factor - arc_angle_start arc scale_factor < 0
  then Dir.CW else Dir.CCW

/-- `angle_start += 2 * math.pi` when the direction is CW. -/
noncomputable def arc_angle_start_shifted (arc : ArcSeg) (scale_factor : ℝ) : ℝ :=
  if arc_direction arc scale_factor = Dir.CW
  then arc_angle_start arc scale_factor + 2 * Real.pi
  else arc_angle_start arc scale_factor

/-- `angle_end += 2 * math.pi` when the direction is CW. -/
noncomputable def arc_angle_end_shifted (arc : ArcSeg) (scale_factor : ℝ) : ℝ :=
  if arc_direction arc scale_factor = Dir.CW
  then arc_angle_end arc scale_factor + 2 * Real.pi
  else arc_angle_end arc scale_factor

/-- `theta_diff = angle_end - angle_start`, negated when the direction is CW. -/
noncomputable def arc_theta_diff (arc : ArcSeg) (scale_factor : ℝ) : ℝ :=
  if arc_direction arc scale_factor = Dir.CW
  then -(arc_angle_end_shifted arc scale_factor - arc_angle_start_shifted arc scale_factor)
  else arc_angle_end_shifted arc scale_factor - arc_angle_start_shifted arc scale_factor

/-- `radius = abs(arc.radius * scale_factor)` (the `radius` attribute is a
complex number `rx + ry*i`, so `abs` is its modulus). -/
noncomputable def arc_radius (arc : ArcSeg) (scale_factor : ℝ) : ℝ :=
  Complex.abs (arc.radius * (scale_factor : ℂ))

/-- The sample point at loop index `i`:
`center + radius * cmath.rect(1, angle_start + i * theta_diff / num_segments)`. -/
noncomputable def arc_point (arc : ArcSeg) (scale_factor : ℝ)
    (num_segments i : ℕ) : ℂ :=
  arc.center * (scale_factor : ℂ) +
    (arc_radius arc scale_factor : ℂ) *
      rect1 (arc_angle_start_shifted arc scale_factor +
        (i : ℝ) * arc_theta_diff arc scale_factor / (num_segments : ℝ))

/-- `arc_to_gcode`: for each `i in range(num_segments)` the script computes
`point1` (index `i`) and `point2` (index `i + 1`), emits `point2` annotated
with `abs(point2 - point1)`, and accumulates these chord lengths. -/
noncomputable def arc_to_gcode (arc : ArcSeg) (scale_factor : ℝ)
    (num_segments : ℕ) : List GLine × ℝ :=
  ((List.range num_segments).map fun i =>
      { x := (arc_point arc scale_factor num_segments (i + 1)).re
        y := (arc_point arc scale_factor num_segments (i + 1)).im
        dist := some (Complex.abs (arc_point arc scale_factor num_segments (i + 1) -
                  arc_point arc scale_factor num_segments i)) },
   ((List.range num_segments).map fun i =>
      Complex.abs (arc_point arc scale_factor num_segments (i + 1) -
        arc_point arc scale_factor num_segments i)).sum)

/- ---------------------------------------------------------------------
`svg_to_gcode` (genrate-gcode.py lines 112-159)
--------------------------------------------------------------------- -/

/-- A path segment as yielded by the external parser, tagged by the class
the script branches on (`Line`, `Arc`, `QuadraticBezier`, `CubicBezier`,
closed `Path`).  The `len` fields record the external `length()` method;
for a `Line` that method returns `abs(end - start)`. -/
inductive Segment where
  | line (start endp : ℂ) : Segment
  | arc (a : ArcSeg) : Segment
  | quad (start control endp : ℂ) (len : ℝ) : Segment
  | cubic (start control1 control2 endp : ℂ) (len : ℝ) : Segment
  | path (p : ClosedPath) : Segment

/-- `segment.length()`. -/
noncomputable def Segment.length : Segment → ℝ
  | Segment.line s e => Complex.abs (e - s)
  | Segment.arc a => a.len
  | Segment.quad _ _ _ l => l
  | Segment.cubic _ _ _ _ l => l
  | Segment.path p => p.length

/-- `complex(*offset)`. -/
noncomputable def offsetC (offset : ℝ × ℝ) : ℂ :=
  (offset.1 : ℂ) + (offset.2 : ℂ) * Complex.I

/-- The motion lines `svg_to_gcode` writes for one segment: zero-length
segments are skipped; a `Line` gets its two endpoints transformed by
`* scale_factor + complex(*offset)`; an `Arc` goes to `arc_to_gcode`
(default 100 sub-segments, no offset passed); a `QuadraticBezier` is an
explicit `pass`; a closed `Path` is dispatched on `abs(rx - ry) < 1e-6`
to `circle_to_gcode` or `ellipse_to_gcode` (again no offset passed); any
other class (e.g. `CubicBezier`) matches no branch. -/
noncomputable def segment_gcode (segment : Segment) (scale_factor : ℝ)
    (offset : ℝ × ℝ) : List GLine :=
  if segment.length = 0 then []
  else
    match segment with
    | Segment.line s e =>
        [{ x := (s * (scale_factor : ℂ) + offsetC offset).re
           y := (s * (scale_factor : ℂ) + offsetC offset).im
           dist := none },
         { x := (e * (scale_factor : ℂ) + offsetC offset).re
           y := (e * (scale_factor : ℂ) + offsetC offset).im
           dist := none }]
    | Segment.arc a => (arc_to_gcode a scale_factor 100).1
    | Segment.quad _ _ _ _ => []
    | Segment.cubic _ _ _ _ _ => []
    | Segment.path p =>
        if p.closed then
          if |p.rx - p.ry| < 1e-6 then (circle_to_gcode p scale_factor 100).1
          else (ellipse_to_gcode p scale_factor 100).1
        else []

/-- The motion lines written for one top-level path: the inner
`for segment in path` loop, writing each segment's lines in order. -/
noncomputable def path_gcode (segs : List Segment) (scale_factor : ℝ)
    (offset : ℝ × ℝ) : List GLine :=
  match segs with
  | [] => []
  | s :: rest => segment_gcode s scale_factor offset ++ path_gcode rest scale_factor offset

/-- All motion lines of a conversion run, in path order then segment order
(the two header lines are fixed text and are not modelled). -/
noncomputable def svg_to_gcode (paths : List (List Segment)) (scale_factor : ℝ)
    (offset : ℝ × ℝ) : List GLine :=
  match paths with
  | [] => []
  | p :: rest => path_gcode p scale_factor offset ++ svg_to_gcode rest scale_factor offset

/-- Modelled from the spec: the travel distance of an emitted point
sequence, "straight-line length between them" — the sum of the Euclidean
distances between consecutive motion points.  The script never computes
this for `Line` segments; the spec asserts it as the segment distance. -/
noncomputable def emitted_travel : List GLine → ℝ
  | [] => 0
  | [_] => 0
  | g1 :: g2 :: rest =>
      Real.sqrt ((g2.x - g1.x) ^ 2 + (g2.y - g1.y) ^ 2) + emitted_travel (g2 :: rest)

/- ---------------------------------------------------------------------
Helper lemmas and concrete inputs
--------------------------------------------------------------------- -/

/-- Sum of a mapped `List.range` as a `Finset.range` sum. -/
lemma sum_map_range (f : ℕ → ℝ) (n : ℕ) :
    ((List.range n).map f).sum = ∑ i in Finset.range n, f i := by
  induction n with
  | zero => simp
  | succ k ih =>
      rw [List.range_succ, List.map_append, List.sum_append, Finset.sum_range_succ, ih]
      simp

/-- Sum of a constant-valued map. -/
lemma sum_map_const {α : Type} (l : List α) (f : α → ℝ) (r : ℝ)
    (h : ∀ a ∈ l, f a = r) : (l.map f).sum = (l.length : ℝ) * r := by
  induction l with
  | nil => simp
  | cons a t ih =>
      have ha : f a = r := h a (List.mem_cons_self a t)
      have ht : (t.map f).sum = (t.length : ℝ) * r :=
        ih fun b hb => h b (List.mem_cons_of_mem a hb)
      simp only [List.map_cons, List.sum_cons, List.length_cons, ha, ht]
      push_cast
      ring

/-- The complex modulus written with the coordinates, as it appears in the
emitted distances. -/
lemma abs_eq_sqrt (z : ℂ) : Complex.abs z = Real.sqrt (z.re ^ 2 + z.im ^ 2) := by
  rw [Complex.abs_apply, Complex.normSq_apply]
  ring_nf

/-- Radial distance of every circle sample from the sampling center. -/
lemma circle_dist (c : ClosedPath) (sf : ℝ) (N i : ℕ) :
    Complex.abs (circle_point c sf N i - c.start * (sf : ℂ)) = |circle_radius c sf| := by
  unfold circle_point
  rw [add_sub_cancel_left, map_mul, Complex.abs_ofReal, rect1,
    Complex.abs_exp_ofReal_mul_I, mul_one]

/-- Radial distance of every ellipse sample from the sampling center. -/
lemma ellipse_dist (c : ClosedPath) (sf : ℝ) (N i : ℕ) :
    Complex.abs (ellipse_point c sf N i - c.start * (sf : ℂ)) = ellipse_rx c sf := by
  unfold ellipse_point
  rw [add_sub_cancel_left, map_mul, Complex.abs_ofReal, rect1,
    Complex.abs_exp_ofReal_mul_I, mul_one, ellipse_rx, abs_abs]

/-- A closed path whose `rx`/`ry` agree: dispatched as a circle.  Its
`length()` is `2 * pi`, so the inferred radius at scale 1 is `1`. -/
noncomputable def p0 : ClosedPath :=
  { start := 0, length := 2 * Real.pi, rx := 1, ry := 1, closed := true }

/-- A quarter arc from `(0, 1)` to `(1, 0)` around the origin: its angle
difference is `-(pi / 2)`, so the script labels it `CW`. -/
noncomputable def arcC2 : ArcSeg :=
  { start := Complex.I, endp := 1, center := 0, radius := 1, len := 1 }

/- ---------------------------------------------------------------------
Claim C4
--------------------------------------------------------------------- -/

/-- Claim C4: for every Arc segment flattened with `num_segments = N`,
exactly `N` motion lines are emitted (not `N + 1`); the line for step `i`
carries the point at step `i + 1` (the second point of the pair) annotated
with the chord distance from the point at step `i`, and the returned total
is the sum of the `N` per-step chord lengths. -/
theorem c4_arc_emits_n_lines (a : ArcSeg) (sf : ℝ) (N : ℕ) :
    (arc_to_gcode a sf N).1.length = N
    ∧ (∀ i : ℕ, i < N → (arc_to_gcode a sf N).1.get? i =
        some { x := (arc_point a sf N (i + 1)).re
               y := (arc_point a sf N (i + 1)).im
               dist := some (Complex.abs (arc_point a sf N (i + 1) - arc_point a sf N i)) })
    ∧ (arc_to_gcode a sf N).2 =
        ∑ i in Finset.range N, Complex.abs (arc_point a sf N (i + 1) - arc_point a sf N i) := by
  refine ⟨?_, ?_, ?_⟩
  · simp [arc_to_gcode]
  · intro i hi
    show ((List.range N).map fun i =>
        ({ x := (arc_point a sf N (i + 1)).re
           y := (arc_point a sf N (i + 1)).im
           dist := some (Complex.abs (arc_point a sf N (i + 1) - arc_point a sf N i)) }
          : GLine)).get? i = _
    rw [List.get?_map, List.get?_range hi]
    rfl
  · simpa [arc_to_gcode] using
      sum_map_range (fun i => Complex.abs (arc_point a sf N (i + 1) - arc_point a sf N i)) N

/-- Witness for C4 at the concrete quarter arc with one sub-segment. -/
theorem c4_arc_emits_n_lines_witness :
    (arc_to_gcode arcC2 1 1).1.get? 0 =
      some { x := (arc_point arcC2 1 1 1).re
             y := (arc_point arcC2 1 1 1).im
             dist := some (Complex.abs (arc_point arcC2 1 1 1 - arc_point arcC2 1 1 0)) } :=
  (c4_arc_emits_n_lines arcC2 1 1).2.1 0 (by norm_num)

/- ---------------------------------------------------------------------
Claim C6
--------------------------------------------------------------------- -/

/-- Claim C6: the elliptical flattening uses only the horizontal radius:
two ellipse inputs agreeing on start point and `rx` but differing in `ry`
(at the same scale factor and `num_segments`) produce identical emitted
lines and identical total distance. -/
theorem c6_ry_has_no_effect (s : ℂ) (len1 len2 rx ry1 ry2 : ℝ) (b1 b2 : Bool)
    (sf : ℝ) (N : ℕ) (h : ry1 ≠ ry2) :
    ellipse_to_gcode { start := s, length := len1, rx := rx, ry := ry1, closed := b1 } sf N =
      ellipse_to_gcode { start := s, length := len2, rx := rx, ry := ry2, closed := b2 } sf N :=
  rfl

/-- Witness for C6 at two concrete ellipses differing only in `ry`. -/
theorem c6_ry_has_no_effect_witness :
    ellipse_to_gcode { start := 0, length := 1, rx := 2, ry := 0, closed := true } 1 1 =
      ellipse_to_gcode { start := 0, length := 1, rx := 2, ry := 1, closed := true } 1 1 :=
  c6_ry_has_no_effect 0 1 1 2 0 1 true true 1 1 (by norm_num)

/- ---------------------------------------------------------------------
Claim C8
--------------------------------------------------------------------- -/

/-- The segment kinds the classifier does not dispatch to a flattener:
`QuadraticBezier` (explicit `pass`) and `CubicBezier` (no branch at all). -/
def Segment.unhandled : Segment → Bool
  | Segment.quad _ _ _ _ => true
  | Segment.cubic _ _ _ _ _ => true
  | _ => false

/-- Claim C8: a non-zero-length segment the classifier does not dispatch
(quadratic Bezier, or an unrecognized kind such as cubic Bezier)
contributes zero output lines, and the run continues with the remaining
segments unchanged. -/
theorem c8_unhandled_silent_noop (q : Segment) (hq : q.unhandled = true)
    (hlen : q.length ≠ 0) (sf : ℝ) (o : ℝ × ℝ) (pre post : List Segment) :
    segment_gcode q sf o = []
    ∧ path_gcode (pre ++ q :: post) sf o = path_gcode pre sf o ++ path_gcode post sf o := by
  have hempty : segment_gcode q sf o = [] := by
    cases q with
    | line s e => simp [Segment.unhandled] at hq
    | arc a => simp [Segment.unhandled] at hq
    | quad s c e l => unfold segment_gcode; split <;> rfl
    | cubic s c1 c2 e l => unfold segment_gcode; split <;> rfl
    | path p => simp [Segment.unhandled] at hq
  refine ⟨hempty, ?_⟩
  induction pre with
  | nil => simp [path_gcode, hempty]
  | cons a t ih => simp [path_gcode, ih, List.append_assoc]

/-- Witness for C8 at a concrete quadratic Bezier of length 1. -/
theorem c8_unhandled_silent_noop_witness :
    segment_gcode (Segment.quad 0 1 2 1) 1 (0, 0) = []
    ∧ path_gcode ([] ++ Segment.quad 0 1 2 1 :: []) 1 (0, 0) =
        path_gcode [] 1 (0, 0) ++ path_gcode [] 1 (0, 0) :=
  c8_unhandled_silent_noop (Segment.quad 0 1 2 1) rfl
    (by norm_num [Segment.length]) 1 (0, 0) [] []

/- ---------------------------------------------------------------------
Claim C9
--------------------------------------------------------------------- -/

/-- Claim C9: a closed compound path is classified on its raw radius
fields, before the scale factor is applied: `|rx - ry| < 1e-6` selects the
circle flattener, anything else the ellipse flattener, for every scale
factor and offset. -/
theorem c9_classifier_unscaled (p : ClosedPath) (sf : ℝ) (o : ℝ × ℝ)
    (hc : p.closed = true) (hlen : p.length ≠ 0) :
    (|p.rx - p.ry| < 1e-6 →
        segment_gcode (Segment.path p) sf o = (circle_to_gcode p sf 100).1)
    ∧ (¬ |p.rx - p.ry| < 1e-6 →
        segment_gcode (Segment.path p) sf o = (ellipse_to_gcode p sf 100).1) := by
  have hbase : segment_gcode (Segment.path p) sf o =
      if |p.rx - p.ry| < 1e-6 then (circle_to_gcode p sf 100).1
      else (ellipse_to_gcode p sf 100).1 := by
    unfold segment_gcode
    simp only [Segment.length]
    rw [if_neg hlen]
    show (if p.closed = true then
        if |p.rx - p.ry| < 1e-6 then (circle_to_gcode p sf 100).1
        else (ellipse_to_gcode p sf 100).1
      else []) = _
    rw [hc]
    simp
  constructor
  · intro h; rw [hbase, if_pos h]
  · intro h; rw [hbase, if_neg h]

/-- Witness for C9 at the concrete closed path `p0` with `rx = ry`. -/
theorem c9_classifier_unscaled_witness :
    segment_gcode (Segment.path p0) 1 (0, 0) = (circle_to_gcode p0 1 100).1 :=
  (c9_classifier_unscaled p0 1 (0, 0) rfl
      (by show (2 : ℝ) * Real.pi ≠ 0; positivity)).1
    (by norm_num [p0])

/- ---------------------------------------------------------------------
Claim C3
--------------------------------------------------------------------- -/

/-- Claim C3: with `num_segments = N`, each of the `N + 1` motion lines of
the circle and ellipse flatteners is annotated with the distance from the
sample point to the sampling center, which always equals the sampling
radius (`rx` for the ellipse), and the returned total is `(N + 1)` times
that radius. -/
theorem c3_radial_distance (c : ClosedPath) (sf : ℝ) (N : ℕ)
    (hN : 1 ≤ N) (hsf : 0 ≤ sf) :
    (∀ g ∈ (circle_to_gcode c sf N).1, g.dist = some (circle_radius c sf))
    ∧ (circle_to_gcode c sf N).2 = ((N : ℝ) + 1) * circle_radius c sf
    ∧ (circle_to_gcode c sf N).1.length = N + 1
    ∧ (∀ g ∈ (ellipse_to_gcode c sf N).1, g.dist = some (ellipse_rx c sf))
    ∧ (ellipse_to_gcode c sf N).2 = ((N : ℝ) + 1) * ellipse_rx c sf
    ∧ (ellipse_to_gcode c sf N).1.length = N + 1 := by
  have hr0 : 0 ≤ circle_radius c sf :=
    div_nonneg (mul_nonneg (abs_nonneg _) hsf) (le_of_lt Real.two_pi_pos)
  have hr : |circle_radius c sf| = circle_radius c sf := abs_of_nonneg hr0
  refine ⟨?_, ?_, by simp [circle_to_gcode], ?_, ?_, by simp [ellipse_to_gcode]⟩
  · intro g hg
    simp only [circle_to_gcode, List.mem_map, List.mem_range] at hg
    obtain ⟨i, hi, rfl⟩ := hg
    simp [circle_dist, hr]
  · show ((List.range (N + 1)).map fun i =>
        Complex.abs (circle_point c sf N i - c.start * (sf : ℂ))).sum = _
    rw [sum_map_const _ _ (circle_radius c sf) fun i _ => by rw [circle_dist, hr]]
    rw [List.length_range]
    push_cast
    ring
  · intro g hg
    simp only [ellipse_to_gcode, List.mem_map, List.mem_range] at hg
    obtain ⟨i, hi, rfl⟩ := hg
    simp [ellipse_dist]
  · show ((List.range (N + 1)).map fun i =>
        Complex.abs (ellipse_point c sf N i - c.start * (sf : ℂ))).sum = _
    rw [sum_map_const _ _ (ellipse_rx c sf) fun i _ => by rw [ellipse_dist]]
    rw [List.length_range]
    push_cast
    ring

/-- Witness for C3 at the concrete circle `p0` with one sub-segment. -/
theorem c3_radial_distance_witness :
    (circle_to_gcode p0 1 1).2 = 2 * circle_radius p0 1 := by
  have h := (c3_radial_distance p0 1 1 le_rfl (by norm_num)).2.1
  rw [h]
  norm_num

/- ---------------------------------------------------------------------
Claim C5
--------------------------------------------------------------------- -/

/-- Claim C5: the circle flattener infers its radius from the closed
curve's total parametric length (scaled), emits exactly `N + 1` motion
points for `num_segments = N`, and the first and the last emitted point
coincide, closing the path (exactly, in the real-number model). -/
theorem c5_circle_closure (c : ClosedPath) (sf : ℝ) (N : ℕ)
    (hN : 1 ≤ N) (hlen : 0 ≤ c.length) :
    circle_radius c sf = c.length * sf / (2 * Real.pi)
    ∧ (circle_to_gcode c sf N).1.length = N + 1
    ∧ (circle_to_gcode c sf N).1.get? N = (circle_to_gcode c sf N).1.get? 0 := by
  have hNne : ((N : ℝ)) ≠ 0 := Nat.cast_ne_zero.mpr (by omega)
  have h2pi : rect1 (2 * Real.pi * ((N : ℝ) / (N : ℝ))) = 1 := by
    rw [div_self hNne, mul_one, rect1]
    push_cast
    exact Complex.exp_two_pi_mul_I
  have h0 : rect1 (2 * Real.pi * (((0 : ℕ) : ℝ) / (N : ℝ))) = 1 := by
    norm_num [rect1, Complex.exp_zero]
  have hpt : circle_point c sf N N = circle_point c sf N 0 := by
    unfold circle_point
    rw [h2pi, h0]
  have hget : ∀ i : ℕ, i < N + 1 → (circle_to_gcode c sf N).1.get? i =
      some { x := (circle_point c sf N i).re
             y := (circle_point c sf N i).im
             dist := some (Complex.abs (circle_point c sf N i - c.start * (sf : ℂ))) } := by
    intro i hi
    show ((List.range (N + 1)).map fun i =>
        ({ x := (circle_point c sf N i).re
           y := (circle_point c sf N i).im
           dist := some (Complex.abs (circle_point c sf N i - c.start * (sf : ℂ))) }
          : GLine)).get? i = _
    rw [List.get?_map, List.get?_range hi]
    rfl
  refine ⟨?_, by simp [circle_to_gcode], ?_⟩
  · unfold circle_radius
    rw [abs_of_nonneg hlen]
  · rw [hget N (by omega), hget 0 (by omega), hpt]

/-- Witness for C5 at the concrete circle `p0` with one sub-segment. -/
theorem c5_circle_closure_witness :
    (circle_to_gcode p0 1 1).1.get? 1 = (circle_to_gcode p0 1 1).1.get? 0 :=
  (c5_circle_closure p0 1 1 le_rfl (by show (0 : ℝ) ≤ 2 * Real.pi; positivity)).2.2

/- ---------------------------------------------------------------------
Claim C10
--------------------------------------------------------------------- -/

/-- Claim C10: both closed-curve flatteners sample around the curve's
start point multiplied by the scale factor; every emitted point lies at
Euclidean distance exactly the computed radius (`rx` for the ellipse)
from that scaled start point. -/
theorem c10_samples_on_circle_about_scaled_start (c : ClosedPath) (sf : ℝ)
    (N : ℕ) (hsf : 0 ≤ sf) :
    (∀ g ∈ (circle_to_gcode c sf N).1,
        Real.sqrt ((g.x - (c.start * (sf : ℂ)).re) ^ 2 +
          (g.y - (c.start * (sf : ℂ)).im) ^ 2) = circle_radius c sf)
    ∧ (∀ g ∈ (ellipse_to_gcode c sf N).1,
        Real.sqrt ((g.x - (c.start * (sf : ℂ)).re) ^ 2 +
          (g.y - (c.start * (sf : ℂ)).im) ^ 2) = ellipse_rx c sf) := by
  have hr0 : 0 ≤ circle_radius c sf :=
    div_nonneg (mul_nonneg (abs_nonneg _) hsf) (le_of_lt Real.two_pi_pos)
  constructor
  · intro g hg
    simp only [circle_to_gcode, List.mem_map, List.mem_range] at hg
    obtain ⟨i, hi, rfl⟩ := hg
    show Real.sqrt (((circle_point c sf N i).re - (c.start * (sf : ℂ)).re) ^ 2 +
        ((circle_point c sf N i).im - (c.start * (sf : ℂ)).im) ^ 2) = _
    rw [← Complex.sub_re, ← Complex.sub_im, ← abs_eq_sqrt, circle_dist]
    exact abs_of_nonneg hr0
  · intro g hg
    simp only [ellipse_to_gcode, List.mem_map, List.mem_range] at hg
    obtain ⟨i, hi, rfl⟩ := hg
    show Real.sqrt (((ellipse_point c sf N i).re - (c.start * (sf : ℂ)).re) ^ 2 +
        ((ellipse_point c sf N i).im - (c.start * (sf : ℂ)).im) ^ 2) = _
    rw [← Complex.sub_re, ← Complex.sub_im, ← abs_eq_sqrt, ellipse_dist]

/-- The circle `p0` has inferred radius 1 at scale 1. -/
lemma circle_radius_p0 : circle_radius p0 1 = 1 := by
  simp only [circle_radius, p0]
  rw [abs_of_pos Real.two_pi_pos, mul_one, div_self Real.two_pi_pos.ne']

/-- The sample of `p0` at loop index 0 is the point `(1, 0)`. -/
lemma circle_point_p0_zero (N : ℕ) : circle_point p0 1 N 0 = 1 := by
  unfold circle_point
  rw [circle_radius_p0]
  simp [p0, rect1, Complex.exp_zero]

/-- The motion line `(1, 0)` with annotation 1 is emitted for `p0`. -/
lemma circle_gline_p0 (N : ℕ) :
    ({ x := 1, y := 0, dist := some 1 } : GLine) ∈ (circle_to_gcode p0 1 N).1 := by
  show _ ∈ (List.range (N + 1)).map _
  refine List.mem_map.mpr ⟨0, List.mem_range.mpr (by omega), ?_⟩
  rw [circle_point_p0_zero]
  simp [p0]

/-- Witness for C10 at the emitted point `(1, 0)` of the circle `p0`. -/
theorem c10_samples_on_circle_about_scaled_start_witness :
    Real.sqrt (((1 : ℝ) - (p0.start * ((1 : ℝ) : ℂ)).re) ^ 2 +
      ((0 : ℝ) - (p0.start * ((1 : ℝ) : ℂ)).im) ^ 2) = circle_radius p0 1 :=
  (c10_samples_on_circle_about_scaled_start p0 1 1 (by norm_num)).1
    { x := 1, y := 0, dist := some 1 } (circle_gline_p0 1)

/- ---------------------------------------------------------------------
Claim C7
--------------------------------------------------------------------- -/

/-- Claim C7: a non-zero-length `Line` segment emits exactly two motion
lines — the transformed start point then the transformed end point, both
without a distance annotation — and the straight-line travel between the
two emitted points is the distance between the transformed endpoints. -/
theorem c7_line_two_points (s e : ℂ) (sf : ℝ) (o : ℝ × ℝ)
    (h : Complex.abs (e - s) ≠ 0) :
    segment_gcode (Segment.line s e) sf o =
      [{ x := (s * (sf : ℂ) + offsetC o).re
         y := (s * (sf : ℂ) + offsetC o).im
         dist := none },
       { x := (e * (sf : ℂ) + offsetC o).re
         y := (e * (sf : ℂ) + offsetC o).im
         dist := none }]
    ∧ emitted_travel (segment_gcode (Segment.line s e) sf o) =
        Complex.abs (e * (sf : ℂ) + offsetC o - (s * (sf : ℂ) + offsetC o)) := by
  have h1 : segment_gcode (Segment.line s e) sf o =
      [{ x := (s * (sf : ℂ) + offsetC o).re
         y := (s * (sf : ℂ) + offsetC o).im
         dist := none },
       { x := (e * (sf : ℂ) + offsetC o).re
         y := (e * (sf : ℂ) + offsetC o).im
         dist := none }] := by
    unfold segment_gcode
    simp only [Segment.length]
    rw [if_neg h]
  refine ⟨h1, ?_⟩
  rw [h1]
  have htr : ∀ A B : GLine, emitted_travel [A, B] =
      Real.sqrt ((B.x - A.x) ^ 2 + (B.y - A.y) ^ 2) := by
    intro A B
    simp [emitted_travel]
  rw [htr]
  show Real.sqrt (((e * (sf : ℂ) + offsetC o).re - (s * (sf : ℂ) + offsetC o).re) ^ 2 +
      ((e * (sf : ℂ) + offsetC o).im - (s * (sf : ℂ) + offsetC o).im) ^ 2) = _
  rw [← Complex.sub_re, ← Complex.sub_im, ← abs_eq_sqrt]

/-- Witness for C7: the spec example, a line from `(0,0)` to `(10,0)` at
scale 1 and offset `(0,0)`: two points and travel 10. -/
theorem c7_line_two_points_witness :
    segment_gcode (Segment.line 0 ((10 : ℝ) : ℂ)) 1 (0, 0) =
      [{ x := 0, y := 0, dist := none }, { x := 10, y := 0, dist := none }]
    ∧ emitted_travel (segment_gcode (Segment.line 0 ((10 : ℝ) : ℂ)) 1 (0, 0)) = 10 := by
  have h := c7_line_two_points 0 ((10 : ℝ) : ℂ) 1 (0, 0) (by
    rw [sub_zero, Complex.abs_ofReal]
    norm_num)
  have hoff : offsetC ((0 : ℝ), (0 : ℝ)) = 0 := by
    simp [offsetC]
  refine ⟨?_, ?_⟩
  · rw [h.1, hoff]
    norm_num [Complex.ofReal_re, Complex.ofReal_im]
  · rw [h.2, hoff]
    norm_num [Complex.abs_ofReal]

/- ---------------------------------------------------------------------
Claim C1
--------------------------------------------------------------------- -/

/-- Counterexample to C1 as stated: with a nonzero offset `(10, 10)` the
run's output for a closed circular path is identical to the output with
offset `(0, 0)` — the offset is never applied in the circle branch — and
its first emitted point is `(1, 0)`, the scale-only sample, not a
translated one. -/
theorem c1_counterexample :
    segment_gcode (Segment.path p0) 1 (10, 10) = segment_gcode (Segment.path p0) 1 (0, 0)
    ∧ (segment_gcode (Segment.path p0) 1 (10, 10)).get? 0 =
        some { x := 1, y := 0, dist := some 1 }
    ∧ ((10 : ℝ), (10 : ℝ)) ≠ ((0 : ℝ), (0 : ℝ)) := by
  have hbase : ∀ o : ℝ × ℝ,
      segment_gcode (Segment.path p0) 1 o = (circle_to_gcode p0 1 100).1 := by
    intro o
    unfold segment_gcode
    simp only [Segment.length]
    rw [if_neg (by simp [p0]; positivity)]
    show (if |p0.rx - p0.ry| < 1e-6 then (circle_to_gcode p0 1 100).1
        else (ellipse_to_gcode p0 1 100).1) = _
    rw [if_pos (by norm_num [p0])]
  refine ⟨by rw [hbase, hbase], ?_, by simp⟩
  rw [hbase]
  have hg : (circle_to_gcode p0 1 100).1.get? 0 = some
      { x := (circle_point p0 1 100 0).re
        y := (circle_point p0 1 100 0).im
        dist := some (Complex.abs (circle_point p0 1 100 0 - p0.start * ((1 : ℝ) : ℂ))) } := by
    show ((List.range (100 + 1)).map fun i =>
        ({ x := (circle_point p0 1 100 i).re
           y := (circle_point p0 1 100 i).im
           dist := some (Complex.abs (circle_point p0 1 100 i - p0.start * ((1 : ℝ) : ℂ))) }
          : GLine)).get? 0 = _
    rw [List.get?_map, List.get?_range (by omega)]
    rfl
  rw [hg, circle_point_p0_zero]
  simp [p0]

/-- Claim C1 (amended): the `coordinate * scale + offset` transform is
applied only to `Line` segments; the arc, circle and ellipse branches pass
only the scale factor on, so their emitted lines are the same for every
offset. -/
theorem c1_offset_applied_only_to_lines (sf : ℝ) (o : ℝ × ℝ) :
    (∀ s e : ℂ, Complex.abs (e - s) ≠ 0 →
        segment_gcode (Segment.line s e) sf o =
          [{ x := (s * (sf : ℂ) + offsetC o).re
             y := (s * (sf : ℂ) + offsetC o).im
             dist := none },
           { x := (e * (sf : ℂ) + offsetC o).re
             y := (e * (sf : ℂ) + offsetC o).im
             dist := none }])
    ∧ (∀ seg : Segment, (∀ s e : ℂ, seg ≠ Segment.line s e) →
        segment_gcode seg sf o = segment_gcode seg sf (0, 0)) := by
  constructor
  · intro s e h
    unfold segment_gcode
    simp only [Segment.length]
    rw [if_neg h]
  · intro seg hseg
    cases seg with
    | line s e => exact absurd rfl (hseg s e)
    | arc a => rfl
    | quad s c e l => rfl
    | cubic s c1 c2 e l => rfl
    | path p => rfl

/-- Witness for the amended C1: the closed circular path `p0` produces the
same lines at offset `(10, 10)` as at offset `(0, 0)`. -/
theorem c1_offset_applied_only_to_lines_witness :
    segment_gcode (Segment.path p0) 1 (10, 10) = segment_gcode (Segment.path p0) 1 (0, 0) :=
  (c1_offset_applied_only_to_lines 1 (10, 10)).2 (Segment.path p0)
    (by intro s e h; exact Segment.noConfusion h)

/- ---------------------------------------------------------------------
Claim C2
--------------------------------------------------------------------- -/

/-- `arcC2` has `angle_start = pi / 2`. -/
lemma arcC2_angle_start : arc_angle_start arcC2 1 = Real.pi / 2 := by
  unfold arc_angle_start
  simp [arcC2, Complex.arg_I]

/-- `arcC2` has `angle_end = 0`. -/
lemma arcC2_angle_end : arc_angle_end arcC2 1 = 0 := by
  unfold arc_angle_end
  simp [arcC2, Complex.arg_one]

/-- The script labels `arcC2` as CW (`angle_diff = -(pi/2) < 0`). -/
lemma arcC2_dir : arc_direction arcC2 1 = Dir.CW := by
  unfold arc_direction
  rw [arcC2_angle_end, arcC2_angle_start,
    if_pos (show (0 : ℝ) - Real.pi / 2 < 0 by have := Real.pi_pos; linarith)]

/-- The shifted start angle of `arcC2`. -/
lemma arcC2_start_shifted : arc_angle_start_shifted arcC2 1 = Real.pi / 2 + 2 * Real.pi := by
  unfold arc_angle_start_shifted
  rw [arcC2_dir, if_pos rfl, arcC2_angle_start]

/-- The shifted end angle of `arcC2`. -/
lemma arcC2_end_shifted : arc_angle_end_shifted arcC2 1 = 0 + 2 * Real.pi := by
  unfold arc_angle_end_shifted
  rw [arcC2_dir, if_pos rfl, arcC2_angle_end]

/-- The negated step of `arcC2` is `+pi/2`: a positive, counterclockwise
angular step. -/
lemma arcC2_theta_diff : arc_theta_diff arcC2 1 = Real.pi / 2 := by
  unfold arc_theta_diff
  rw [arcC2_dir, if_pos rfl, arcC2_end_shifted, arcC2_start_shifted]
  ring

/-- The scaled radius of `arcC2`. -/
lemma arcC2_radius : arc_radius arcC2 1 = 1 := by
  unfold arc_radius
  simp [arcC2]

/-- With one sub-segment the emitted sample sits at angle `3 * pi`,
i.e. at the point `(-1, 0)`. -/
lemma arcC2_point1 : arc_point arcC2 1 1 1 = -1 := by
  unfold arc_point
  rw [arcC2_start_shifted, arcC2_theta_diff, arcC2_radius]
  have harg : Real.pi / 2 + 2 * Real.pi + ((1 : ℕ) : ℝ) * (Real.pi / 2) / ((1 : ℕ) : ℝ)
      = Real.pi + 2 * Real.pi := by
    push_cast
    ring
  rw [harg, rect1]
  push_cast
  rw [add_mul, Complex.exp_add, Complex.exp_pi_mul_I, Complex.exp_two_pi_mul_I]
  simp [arcC2]

/-- Claim C2, evaluated on the failing input: the quarter arc `arcC2` from
`(0, 1)` to `(1, 0)` is labelled CW, but with the doubly-negated step the
single emitted point of a 1-segment flattening is `(-1, 0)` — the
traversal moves counterclockwise away from the end point `(1, 0)` instead
of clockwise towards it. -/
theorem c2_cw_arc_code_eval :
    arc_direction arcC2 1 = Dir.CW
    ∧ ((arc_to_gcode arcC2 1 1).1.map fun g => (g.x, g.y)) = [((-1 : ℝ), (0 : ℝ))]
    ∧ arcC2.endp = 1 := by
  refine ⟨arcC2_dir, ?_, rfl⟩
  show (((List.range 1).map fun i =>
      ({ x := (arc_point arcC2 1 1 (i + 1)).re
         y := (arc_point arcC2 1 1 (i + 1)).im
         dist := some (Complex.abs (arc_point arcC2 1 1 (i + 1) - arc_point arcC2 1 1 i)) }
        : GLine)).map fun g => (g.x, g.y)) = _
  rw [show List.range 1 = [0] from by simp [List.range_succ],
    List.map_cons, List.map_nil, List.map_cons, List.map_nil]
  norm_num [arcC2_point1]
